import Mathlib

/-!
# Verification of the Linux message queue and run loop
(`juce_linux_Messaging.cpp`)

Shallow embedding of the Linux-native message-dispatch layer: the
cross-thread `InternalMessageQueue` (a FIFO of work items plus a bounded
wakeup-byte counter over a socket pair), the `InternalRunLoop` (a poll set
with a deferred pending-change set), and the `MessageManager` driver
functions built on top of them.

Operations are modelled as pure state transformers on explicit state
records; both locks in the source serialize the operations they protect, so
each critical section becomes one atomic transition.  `revents` fields of
the pollfd array are call-local in the source (every read is preceded in
the same call by the `poll` that wrote them), so the readiness answer of
`poll` is modelled as a predicate `ready : Int → Bool` passed to a dispatch pass,
and the stored pollfd keeps only `fd` and the interest mask.
-/

namespace JuceLinuxMessaging

/-- A `MessageManager::MessageBase`: `ident` distinguishes messages, and
`throws` records whether its `messageCallback` raises an exception when
invoked. -/
structure Msg where
  ident : Nat
  throws : Bool
deriving DecidableEq, Repr

/-- State of `InternalMessageQueue`: the pending FIFO `queue` (a
`ReferenceCountedArray`, appended at the back) and `bytesInSocket`, the
count of wakeup bytes written to the socket pair but not yet read. -/
structure MQState where
  queue : List Msg
  bytesInSocket : Nat
deriving DecidableEq, Repr

/-- A freshly constructed `InternalMessageQueue`: empty queue, no wakeup
bytes pending. -/
def mqInit : MQState := { queue := [], bytesInSocket := 0 }

/-- `InternalMessageQueue::maxBytesInSocketQueue`. -/
def maxBytesInSocketQueue : Nat := 128

/-- `InternalMessageQueue::postMessage`: under the lock, `queue.add (msg)`
appends at the back; then, only if `bytesInSocket < maxBytesInSocketQueue`,
the counter is incremented and one wakeup byte is written to the socket. -/
def postMessage (s : MQState) (msg : Msg) : MQState :=
  let s1 := { s with queue := s.queue ++ [msg] }
  if s1.bytesInSocket < maxBytesInSocketQueue then
    { s1 with bytesInSocket := s1.bytesInSocket + 1 }
  else
    s1

/-- `InternalMessageQueue::popNextMessage`: under the lock, if
`bytesInSocket > 0` decrement it (and read one byte from the socket); then
`queue.removeAndReturn (0)` removes and returns the head, yielding `none`
when the queue is empty. -/
def popNextMessage (s : MQState) : MQState × Option Msg :=
  let s1 :=
    if s.bytesInSocket > 0 then
      { s with bytesInSocket := s.bytesInSocket - 1 }
    else
      s
  match s1.queue with
  | [] => (s1, none)
  | m :: rest => ({ s1 with queue := rest }, some m)

/-- `msg->messageCallback()` as seen through `JUCE_TRY`: a throwing message
produces an exception (`Except.error`), any other returns normally. -/
def messageCallback (m : Msg) : Except Unit Unit :=
  if m.throws then Except.error () else Except.ok ()

/-- `JUCE_CATCH_EXCEPTION`: the handler swallows whatever the invocation
raised, so the drain loop continues either way. -/
def catchException : Except Unit Unit → Unit := fun _ => ()

/-- The drain callback registered by the `InternalMessageQueue`
constructor: `while (auto msg = popNextMessage (fd))` invoke the message
inside `JUCE_TRY ... JUCE_CATCH_EXCEPTION`.  Returns the final queue state
and the list of messages invoked, in invocation order. -/
def drainAll (s : MQState) : MQState × List Msg :=
  match hp : popNextMessage s with
  | (s1, none) => (s1, [])
  | (s1, some m) =>
    let _ := catchException (messageCallback m)
    let r := drainAll s1
    (r.1, m :: r.2)
termination_by s.queue.length
decreasing_by
  simp only [popNextMessage] at hp
  split at hp
  · simp at hp
  · rename_i m2 rest heq
    injection hp with h1 h2
    subst h1
    split at heq <;> simp_all

/-- Fold a sequence of `postMessage` calls (producers serialized by the
queue lock). -/
def postAll (s : MQState) (ms : List Msg) : MQState :=
  ms.foldl postMessage s

/-- One serialized operation on the queue: a `postMessage` or a
`popNextMessage` (the two critical sections guarded by `lock`). -/
inductive MQOp where
  | post : Msg → MQOp
  | pop : MQOp
deriving DecidableEq, Repr

/-- Apply one queue operation, forgetting the popped message. -/
def applyMQOp (s : MQState) : MQOp → MQState
  | MQOp.post m => postMessage s m
  | MQOp.pop => (popNextMessage s).1

/-- Apply an interleaving of queue operations from the initial state. -/
def applyMQOps (ops : List MQOp) : MQState :=
  ops.foldl applyMQOp mqInit

/-- A registered ready-callback, as a small effect language: what the
callback does to the run loop when invoked.  `noop` leaves the registration
state alone, `unreg f` calls `LinuxEventLoop::unregisterFdCallback (f)`,
and `reg f mask c` calls `LinuxEventLoop::registerFdCallback (f, c, mask)`.
(The drain callback of the message queue only touches the queue, so it is
a `noop` as far as the run loop goes.) -/
inductive Cb where
  | noop : Cb
  | unreg : Int → Cb
  | reg : Int → Int → Cb → Cb
deriving DecidableEq, Repr

/-- A `pollfd` as stored in the live set: descriptor and interest mask.
The `revents` field is call-local to each `poll`-based pass (it is written
by `poll` before every read in the same call), so it is modelled by the
`ready` predicate of a dispatch pass, not stored. -/
structure FdEntry where
  fd : Int
  events : Int
deriving DecidableEq, Repr

/-- State of `InternalRunLoop`: the live vectors `fdReadCallbacks` and
`pfds` (guarded by `lock`) and the pending change set `pendingAdditions` /
`pendingRemovals` (guarded by `pendingChangesLock`). -/
structure RLState where
  fdReadCallbacks : List (Int × Cb)
  pfds : List FdEntry
  pendingAdditions : List (Int × Cb × FdEntry)
  pendingRemovals : List Int
deriving DecidableEq, Repr

/-- A freshly constructed `InternalRunLoop`: all four vectors empty. -/
def rlInit : RLState :=
  { fdReadCallbacks := [], pfds := [], pendingAdditions := [], pendingRemovals := [] }

/-- `InternalRunLoop::registerFdCallback`: under `pendingChangesLock`,
push `{ fd, cb, pollfd { fd, eventMask, 0 } }` onto `pendingAdditions`. -/
def registerFdCallback (s : RLState) (fd : Int) (cb : Cb) (eventMask : Int) : RLState :=
  { s with pendingAdditions := s.pendingAdditions ++ [(fd, cb, { fd := fd, events := eventMask })] }

/-- `InternalRunLoop::unregisterFdCallback`: under `pendingChangesLock`,
push `fd` onto `pendingRemovals`. -/
def unregisterFdCallback (s : RLState) (fd : Int) : RLState :=
  { s with pendingRemovals := s.pendingRemovals ++ [fd] }

/-- `InternalRunLoop::removeFdCallback`: erase every entry matching `fd`
from `fdReadCallbacks` and from `pfds` (erase-remove idiom). -/
def removeFdCallback (s : RLState) (fd : Int) : RLState :=
  { s with
    fdReadCallbacks := s.fdReadCallbacks.filter (fun c => c.1 ≠ fd),
    pfds := s.pfds.filter (fun p => p.fd ≠ fd) }

/-- `InternalRunLoop::applyPendingChanges`: if both pending vectors are
empty return `false`; otherwise push every pending addition onto both live
vectors, run `removeFdCallback` for every pending removal, clear the
pending vectors, and return `true`. -/
def applyPendingChanges (s : RLState) : RLState × Bool :=
  if s.pendingAdditions.isEmpty && s.pendingRemovals.isEmpty then
    (s, false)
  else
    let s1 := { s with
      fdReadCallbacks := s.fdReadCallbacks ++ s.pendingAdditions.map (fun a => (a.1, a.2.1)),
      pfds := s.pfds ++ s.pendingAdditions.map (fun a => a.2.2) }
    let s2 := s.pendingRemovals.foldl removeFdCallback s1
    ({ s2 with pendingAdditions := [], pendingRemovals := [] }, true)

/-- Invoke a callback (`fdAndCallback.second (fd)`): perform its staged
effect on the pending change set of the run loop. -/
def runCb (s : RLState) (cb : Cb) (_fd : Int) : RLState :=
  match cb with
  | Cb.noop => s
  | Cb.unreg f => unregisterFdCallback s f
  | Cb.reg f mask c => registerFdCallback s f c mask

/-- The inner loop of `dispatchPendingEvents` for one ready descriptor
`fd`: walk `fdReadCallbacks`; on each entry matching `fd`, invoke the
callback, then `applyPendingChanges()`; if it applied anything, stop at
once (the C++ `return true`), else set `eventWasSent` and continue.
Returns `(state, invocation log, eventWasSent, aborted)`; the log records
the descriptor of every callback invocation, in order. -/
def dispatchInner (fd : Int) :
    List (Int × Cb) → RLState → List Int → Bool → RLState × List Int × Bool × Bool
  | [], s, log, eventWasSent => (s, log, eventWasSent, false)
  | c :: rest, s, log, eventWasSent =>
    if c.1 = fd then
      let s1 := runCb s c.2 fd
      let ac := applyPendingChanges s1
      if ac.2 then
        (ac.1, log ++ [fd], eventWasSent, true)
      else
        dispatchInner fd rest ac.1 (log ++ [fd]) true
    else
      dispatchInner fd rest s log eventWasSent

/-- The outer loop of `dispatchPendingEvents`: walk the polled `pfds`;
skip entries whose `revents` is zero (here: whose descriptor is not
`ready`); for a ready entry run the inner loop; if it aborted, the whole
pass returns `true`, else carry `eventWasSent` on.  Returns
`(state, invocation log, return value)`. -/
def dispatchOuter (ready : Int → Bool) :
    List FdEntry → RLState → List Int → Bool → RLState × List Int × Bool
  | [], s, log, eventWasSent => (s, log, eventWasSent)
  | p :: rest, s, log, eventWasSent =>
    if ready p.fd then
      let r := dispatchInner p.fd s.fdReadCallbacks s log eventWasSent
      if r.2.2.2 then
        (r.1, r.2.1, true)
      else
        dispatchOuter ready rest r.1 r.2.1 r.2.2.1
    else
      dispatchOuter ready rest s log eventWasSent

/-- `InternalRunLoop::dispatchPendingEvents`: apply pending changes, then
`poll` with zero timeout (`ready` says which descriptors the kernel
reports ready); if no descriptor is ready return `false`, else run the
dispatch loops.  Also returns the invocation log. -/
def dispatchPendingEvents (ready : Int → Bool) (s : RLState) : RLState × Bool × List Int :=
  let s1 := (applyPendingChanges s).1
  if (s1.pfds.filter (fun p => ready p.fd)).length = 0 then
    (s1, false, [])
  else
    let r := dispatchOuter ready s1.pfds s1 [] false
    (r.1, r.2.2, r.2.1)

/-- `MessageManager::postMessageToSystemQueue`: if
`InternalMessageQueue::getInstanceWithoutCreating()` yields an instance,
post to it and return `true`; otherwise return `false`.  The singleton is
modelled as `Option MQState` (`none` after `deleteInstance`). -/
def postMessageToSystemQueue (inst : Option MQState) (message : Msg) : Option MQState × Bool :=
  match inst with
  | some q => (some (postMessage q message), true)
  | none => (none, false)

/-- `MessageManager::dispatchNextMessageOnSystemQueue`, its `for (;;)`
loop unrolled for `fuel` iterations.  Each iteration: check the keyboard
break flag (which only requests `JUCEApplicationBase::quit()`, never exits
the loop); if the run-loop singleton exists, dispatch pending events
(`break`, returning `true`, if one was dispatched), else if
`returnIfNoPendingMessages` return `false`, else sleep and loop; if the
singleton does not exist, loop with nothing else happening.  `none` means
the loop is still running after `fuel` iterations. -/
def dispatchNextMessageOnSystemQueue (ready : Int → Bool)
    (returnIfNoPendingMessages : Bool) :
    Nat → Option RLState → Option (Option RLState × Bool)
  | 0, _ => none
  | fuel + 1, runLoopInstance =>
    match runLoopInstance with
    | none => dispatchNextMessageOnSystemQueue ready returnIfNoPendingMessages fuel none
    | some rl =>
      let r := dispatchPendingEvents ready rl
      if r.2.1 then
        some (some r.1, true)
      else if returnIfNoPendingMessages then
        some (some r.1, false)
      else
        dispatchNextMessageOnSystemQueue ready returnIfNoPendingMessages fuel (some r.1)

/-- The live callback and poll vectors list the same descriptors, entry
for entry (`fdReadCallbacks` and `pfds` are always pushed to and erased
from in lockstep). -/
def fdsAligned (s : RLState) : Prop :=
  s.fdReadCallbacks.map Prod.fst = s.pfds.map FdEntry.fd

/-- The prebuilt `pollfd` of every staged addition carries the same descriptor
as the addition itself (guaranteed by `registerFdCallback`, which builds
`pollfd { fd, eventMask, 0 }` from the registered `fd`). -/
def pendingWellFormed (s : RLState) : Prop :=
  ∀ a ∈ s.pendingAdditions, (a.2.2).fd = a.1

instance (s : RLState) : Decidable (fdsAligned s) := by
  unfold fdsAligned; infer_instance

instance (s : RLState) : Decidable (pendingWellFormed s) := by
  unfold pendingWellFormed; infer_instance

/-! ### Concrete fixtures used by witness theorems -/

/-- A message that throws when invoked. -/
def msgThrow : Msg := { ident := 0, throws := true }

/-- A message that returns normally. -/
def msgOk : Msg := { ident := 1, throws := false }

/-- A queue holding a throwing item at the head and a normal one behind
it, with two wakeup bytes pending. -/
def mqThrowThenOk : MQState := { queue := [msgThrow, msgOk], bytesInSocket := 2 }

/-- A queue state with the wakeup-byte counter saturated at the budget. -/
def mqSaturated : MQState := { queue := [], bytesInSocket := 128 }

/-- Concrete sequence of 129 distinct messages. -/
def msgs129 : List Msg := (List.range 129).map (fun i => { ident := i, throws := false })

/-- Run-loop state with one live descriptor `d` whose callback
unregisters `d` itself, and an empty pending change set. -/
def selfUnregState (d mask : Int) : RLState :=
  { fdReadCallbacks := [(d, Cb.unreg d)],
    pfds := [{ fd := d, events := mask }],
    pendingAdditions := [], pendingRemovals := [] }

/-- Run-loop state with two callbacks registered for the same live
descriptor `d`: the first one stages an unregistration of some descriptor
`x` when invoked, the second is arbitrary. -/
def abortPairState (d x mask : Int) (cb2 : Cb) : RLState :=
  { fdReadCallbacks := [(d, Cb.unreg x), (d, cb2)],
    pfds := [{ fd := d, events := mask }],
    pendingAdditions := [], pendingRemovals := [] }

/-- Run-loop state with one live descriptor, one staged addition and one
staged removal. -/
def rlMixed : RLState :=
  { fdReadCallbacks := [(5, Cb.noop)],
    pfds := [{ fd := 5, events := 1 }],
    pendingAdditions := [(6, Cb.noop, { fd := 6, events := 1 })],
    pendingRemovals := [5] }

/-! ## Message-queue lemmas -/

theorem postMessage_queue (s : MQState) (m : Msg) :
    (postMessage s m).queue = s.queue ++ [m] := by
  simp only [postMessage]
  split <;> rfl

theorem postAll_queue (ms : List Msg) (s : MQState) :
    (postAll s ms).queue = s.queue ++ ms := by
  induction ms generalizing s with
  | nil => simp [postAll]
  | cons m rest ih =>
    have h := ih (postMessage s m)
    simp only [postAll] at h ⊢
    simp only [List.foldl_cons, h, postMessage_queue, List.append_assoc, List.cons_append,
      List.nil_append]

theorem popNextMessage_queue (s : MQState) :
    (popNextMessage s).1.queue = s.queue.tail ∧ (popNextMessage s).2 = s.queue.head? := by
  simp only [popNextMessage]
  split <;> rename_i heq <;> split at heq <;> simp_all

theorem drainAll_invoked (s : MQState) : (drainAll s).2 = s.queue := by
  generalize hn : s.queue.length = n
  induction n using Nat.strong_induction_on generalizing s with
  | _ n ih =>
    rw [drainAll.eq_def]
    split
    · rename_i s1 hp
      have h := popNextMessage_queue s
      rw [hp] at h
      cases hq : s.queue <;> simp_all
    · rename_i s1 m hp
      have h := popNextMessage_queue s
      rw [hp] at h
      obtain ⟨h1, h2⟩ := h
      cases hq : s.queue with
      | nil => rw [hq] at h2; simp at h2
      | cons a rest =>
        rw [hq] at h1 h2 hn
        simp only [List.tail_cons, List.head?_cons, Option.some.injEq] at h1 h2
        simp only [List.length_cons] at hn
        have ihs := ih rest.length (by omega) s1 (by rw [h1])
        simp only [ihs, h1, h2]

theorem postMessage_bytes (s : MQState) (m : Msg)
    (h : s.bytesInSocket ≤ maxBytesInSocketQueue) :
    (postMessage s m).bytesInSocket = min (s.bytesInSocket + 1) maxBytesInSocketQueue := by
  simp only [postMessage, maxBytesInSocketQueue] at *
  split <;> rename_i hlt <;> simp_all <;> omega

theorem postAll_bytes (ms : List Msg) (s : MQState)
    (h : s.bytesInSocket ≤ maxBytesInSocketQueue) :
    (postAll s ms).bytesInSocket = min (s.bytesInSocket + ms.length) maxBytesInSocketQueue := by
  induction ms generalizing s with
  | nil =>
    simp only [postAll, List.foldl_nil, List.length_nil, Nat.add_zero]
    unfold maxBytesInSocketQueue at *
    omega
  | cons m rest ih =>
    have hb := postMessage_bytes s m h
    have h2 : (postMessage s m).bytesInSocket ≤ maxBytesInSocketQueue := by
      rw [hb]; omega
    have hr := ih (postMessage s m) h2
    simp only [postAll, List.foldl_cons] at hr ⊢
    rw [hr, hb]
    unfold maxBytesInSocketQueue at *
    simp only [List.length_cons]
    omega

theorem popNextMessage_bytes_le (s : MQState) :
    (popNextMessage s).1.bytesInSocket ≤ s.bytesInSocket := by
  simp only [popNextMessage]
  split <;> rename_i heq <;> split at heq <;> simp_all

theorem applyMQOp_budget (s : MQState) (op : MQOp)
    (h : s.bytesInSocket ≤ maxBytesInSocketQueue) :
    (applyMQOp s op).bytesInSocket ≤ maxBytesInSocketQueue := by
  cases op with
  | post m => rw [applyMQOp, postMessage_bytes s m h]; omega
  | pop => exact le_trans (popNextMessage_bytes_le s) h

theorem foldl_applyMQOp_budget (ops : List MQOp) (s : MQState)
    (h : s.bytesInSocket ≤ maxBytesInSocketQueue) :
    (ops.foldl applyMQOp s).bytesInSocket ≤ maxBytesInSocketQueue := by
  induction ops generalizing s with
  | nil => simpa
  | cons op rest ih =>
    simp only [List.foldl_cons]
    exact ih (applyMQOp s op) (applyMQOp_budget s op h)

/-! ## Claim theorems about the message queue -/

/-- C1: items posted (in lock order) drain in exactly the order they were
posted: starting from a fresh queue, posting the sequence `ms` and then
running the drain loop invokes exactly `ms`, in order — `postMessage`
appends at the tail and `popNextMessage` removes index 0, so the queue is
FIFO. -/
theorem fifo_post_then_drain (ms : List Msg) :
    (drainAll (postAll mqInit ms)).2 = ms := by
  rw [drainAll_invoked, postAll_queue]
  rfl

/-- C2: posting `n > 128` items without an intervening drain loses
nothing: only 128 wakeup bytes are counted (`postMessage` skips the write
once `bytesInSocket` reaches the budget), yet a subsequent drain invokes
all `n` items, because the drain loop pops until `popNextMessage` reports
empty rather than one item per wakeup byte. -/
theorem overBudget_posts_all_drain (ms : List Msg) (h : 128 < ms.length) :
    (postAll mqInit ms).bytesInSocket = maxBytesInSocketQueue ∧
      (drainAll (postAll mqInit ms)).2 = ms := by
  constructor
  · rw [postAll_bytes ms mqInit (by simp [mqInit, maxBytesInSocketQueue])]
    simp only [mqInit, maxBytesInSocketQueue]
    omega
  · exact fifo_post_then_drain ms

/-- C2 witness: the over-budget no-loss theorem applied to a concrete
sequence of 129 messages. -/
theorem overBudget_posts_all_drain_witness :
    128 < msgs129.length ∧
      ((postAll mqInit msgs129).bytesInSocket = maxBytesInSocketQueue ∧
        (drainAll (postAll mqInit msgs129)).2 = msgs129) :=
  ⟨by simp [msgs129], overBudget_posts_all_drain msgs129 (by simp [msgs129])⟩

/-- C5: the wakeup-byte counter never exceeds the budget of 128:
`postMessage` increments it only when it is strictly below
`maxBytesInSocketQueue`, `popNextMessage` decrements it only when it is
strictly positive, so `bytesInSocket ≤ 128` is preserved by both
operations and holds after every interleaving of posts and pops from the
initial state (the lower bound `0 ≤ bytesInSocket` is definitional, the
counter being a guarded-decrement natural). -/
theorem bytesInSocket_budget_invariant :
    (∀ s m, s.bytesInSocket ≤ maxBytesInSocketQueue →
      (postMessage s m).bytesInSocket ≤ maxBytesInSocketQueue) ∧
    (∀ s, s.bytesInSocket ≤ maxBytesInSocketQueue →
      (popNextMessage s).1.bytesInSocket ≤ maxBytesInSocketQueue) ∧
    (∀ ops : List MQOp, (applyMQOps ops).bytesInSocket ≤ maxBytesInSocketQueue) := by
  refine ⟨?_, ?_, ?_⟩
  · intro s m h
    rw [postMessage_bytes s m h]
    omega
  · intro s h
    exact le_trans (popNextMessage_bytes_le s) h
  · intro ops
    exact foldl_applyMQOp_budget ops mqInit (by simp [mqInit])

/-- C5 witness: the budget invariant applied at the saturated counter
value 128 and to a concrete interleaving. -/
theorem bytesInSocket_budget_invariant_witness :
    mqSaturated.bytesInSocket ≤ maxBytesInSocketQueue ∧
    (postMessage mqSaturated msgOk).bytesInSocket ≤ maxBytesInSocketQueue ∧
    (popNextMessage mqSaturated).1.bytesInSocket ≤ maxBytesInSocketQueue ∧
    (applyMQOps [MQOp.post msgOk, MQOp.pop, MQOp.pop]).bytesInSocket ≤ maxBytesInSocketQueue :=
  ⟨by decide,
    bytesInSocket_budget_invariant.1 _ _ (by decide),
    bytesInSocket_budget_invariant.2.1 _ (by decide),
    bytesInSocket_budget_invariant.2.2 _⟩

/-- C6: a throwing head item does not prevent the next item from being
invoked: if `A` is at the head and `B` next, invoking `A` raises
(`messageCallback A` is an exception, swallowed by the catch in the drain
loop), and the same drain pass still dequeues and invokes `B`. -/
theorem throwing_item_next_still_invoked (s : MQState) (A B : Msg) (rest : List Msg)
    (hq : s.queue = A :: B :: rest) (hA : A.throws = true) :
    messageCallback A = Except.error () ∧
      (drainAll s).2 = A :: B :: rest ∧ B ∈ (drainAll s).2 := by
  have hall : (drainAll s).2 = A :: B :: rest := by
    rw [drainAll_invoked, hq]
  refine ⟨by simp [messageCallback, hA], hall, ?_⟩
  rw [hall]
  simp

/-- C6 witness: a concrete two-item queue whose head throws. -/
theorem throwing_item_next_still_invoked_witness :
    messageCallback msgThrow = Except.error () ∧
      (drainAll mqThrowThenOk).2 = msgThrow :: msgOk :: [] ∧
      msgOk ∈ (drainAll mqThrowThenOk).2 :=
  throwing_item_next_still_invoked mqThrowThenOk msgThrow msgOk [] rfl rfl

/-- C8: `MessageManager::postMessageToSystemQueue` returns `false` exactly
when the queue singleton has already been torn down
(`getInstanceWithoutCreating` yields nothing); on a live instance it
enqueues the item via `postMessage` and returns `true`. -/
theorem postToSystemQueue_false_iff_torn_down :
    (∀ (inst : Option MQState) (m : Msg),
      ((postMessageToSystemQueue inst m).2 = false ↔ inst = none)) ∧
    (∀ (q : MQState) (m : Msg),
      postMessageToSystemQueue (some q) m = (some (postMessage q m), true)) := by
  constructor
  · intro inst m
    cases inst <;> simp [postMessageToSystemQueue]
  · intro q m
    rfl

/-- C9: when the run-loop singleton no longer exists,
`dispatchNextMessageOnSystemQueue` never returns, whatever
`returnIfNoPendingMessages` is: the `for (;;)` body has no `break` or
`return` on the null-instance branch, so after any number of iterations
the loop is still running. -/
theorem dispatchLoop_spins_without_runloop (ready : Int → Bool)
    (returnIfNoPendingMessages : Bool) (fuel : Nat) :
    dispatchNextMessageOnSystemQueue ready returnIfNoPendingMessages fuel none = none := by
  induction fuel with
  | zero => rfl
  | succ n ih => simpa [dispatchNextMessageOnSystemQueue] using ih

/-! ## Run-loop lemmas -/

theorem removeFdCallback_pfds_nil (t : RLState) (fd : Int) (h : t.pfds = []) :
    (removeFdCallback t fd).pfds = [] := by
  simp [removeFdCallback, h]

theorem foldl_removeFdCallback_pfds_nil (fds : List Int) (t : RLState) (h : t.pfds = []) :
    (fds.foldl removeFdCallback t).pfds = [] := by
  induction fds generalizing t with
  | nil => simpa
  | cons fd rest ih =>
    simp only [List.foldl_cons]
    exact ih (removeFdCallback t fd) (removeFdCallback_pfds_nil t fd h)

theorem applyPendingChanges_pfds_nil (s : RLState) (hpfds : s.pfds = [])
    (hadd : s.pendingAdditions = []) : (applyPendingChanges s).1.pfds = [] := by
  simp only [applyPendingChanges]
  split
  · simpa
  · exact foldl_removeFdCallback_pfds_nil _ _ (by simp [hadd, hpfds])

/-- C4: on an empty live descriptor set with no staged additions,
`dispatchPendingEvents` reports no ready descriptor (the zero-timeout
`poll` over zero descriptors finds nothing) and returns `false` at once,
invoking no callback — the pass does not block. -/
theorem dispatchPendingEvents_empty_set_no_event (ready : Int → Bool) (s : RLState)
    (hpfds : s.pfds = []) (hadd : s.pendingAdditions = []) :
    (dispatchPendingEvents ready s).2.1 = false ∧
      (dispatchPendingEvents ready s).2.2 = [] := by
  have h1 : (applyPendingChanges s).1.pfds = [] := applyPendingChanges_pfds_nil s hpfds hadd
  simp [dispatchPendingEvents, h1]

/-- C4 witness: a state with an empty poll set and a staged removal. -/
theorem dispatchPendingEvents_empty_set_no_event_witness :
    (unregisterFdCallback rlInit 3).pfds = [] ∧
      (unregisterFdCallback rlInit 3).pendingAdditions = [] ∧
      (dispatchPendingEvents (fun _ => true) (unregisterFdCallback rlInit 3)).2.1 = false ∧
      (dispatchPendingEvents (fun _ => true) (unregisterFdCallback rlInit 3)).2.2 = [] :=
  ⟨rfl, rfl,
    (dispatchPendingEvents_empty_set_no_event (fun _ => true) _ rfl rfl).1,
    (dispatchPendingEvents_empty_set_no_event (fun _ => true) _ rfl rfl).2⟩

/-- C7: a descriptor `d` registered with a callback that unregisters `d`
itself: one readiness of `d` invokes the callback exactly once (the log is
`[d]`), the staged removal is merged at the checkpoint right after the
invocation — leaving the run loop empty, i.e. the freshly constructed
state — and a later dispatch pass, whatever `poll` reports, invokes
nothing and finds no event. -/
theorem self_unregistering_callback_once (d mask : Int) (ready : Int → Bool)
    (hready : ready d = true) :
    dispatchPendingEvents ready (selfUnregState d mask) = (rlInit, true, [d]) ∧
      ∀ ready2 : Int → Bool, dispatchPendingEvents ready2 rlInit = (rlInit, false, []) := by
  constructor
  · simp [dispatchPendingEvents, applyPendingChanges, dispatchOuter, dispatchInner,
      runCb, unregisterFdCallback, removeFdCallback, selfUnregState, hready, rlInit]
  · intro ready2
    simp [dispatchPendingEvents, applyPendingChanges, rlInit]

/-- C7 witness: descriptor 3, interest mask 1, every descriptor reported
ready. -/
theorem self_unregistering_callback_once_witness :
    (fun _ => true : Int → Bool) 3 = true ∧
      (dispatchPendingEvents (fun _ => true) (selfUnregState 3 1) = (rlInit, true, [3]) ∧
        ∀ ready2 : Int → Bool, dispatchPendingEvents ready2 rlInit = (rlInit, false, [])) :=
  ⟨rfl, self_unregistering_callback_once 3 1 (fun _ => true) rfl⟩

theorem dispatchInner_log_decomp (fd : Int) (cbs : List (Int × Cb)) (s : RLState)
    (log : List Int) (sent : Bool) :
    ∃ δ s1 sent1 ab, dispatchInner fd cbs s log sent = (s1, log ++ δ, sent1, ab) ∧
      ((ab = true ∨ sent1 = true) ↔ (sent = true ∨ δ ≠ [])) := by
  induction cbs generalizing s log sent with
  | nil =>
    exact ⟨[], s, sent, false, by simp [dispatchInner], by simp⟩
  | cons c rest ih =>
    by_cases hc : c.1 = fd
    · cases hac : (applyPendingChanges (runCb s c.2 fd)).2 with
      | true =>
        refine ⟨[fd], (applyPendingChanges (runCb s c.2 fd)).1, sent, true, ?_, by simp⟩
        simp [dispatchInner, hc, hac]
      | false =>
        obtain ⟨δ, s1, sent1, ab, heq, hiff⟩ :=
          ih (applyPendingChanges (runCb s c.2 fd)).1 (log ++ [fd]) true
        refine ⟨[fd] ++ δ, s1, sent1, ab, ?_, ?_⟩
        · simp [dispatchInner, hc, hac, heq]
        · have hl : ab = true ∨ sent1 = true := hiff.mpr (Or.inl rfl)
          exact iff_of_true hl (Or.inr (by simp))
    · obtain ⟨δ, s1, sent1, ab, heq, hiff⟩ := ih s log sent
      exact ⟨δ, s1, sent1, ab, by simp [dispatchInner, hc, heq], hiff⟩

theorem dispatchOuter_log_decomp (ready : Int → Bool) (pl : List FdEntry) (s : RLState)
    (log : List Int) (sent : Bool) :
    ∃ δ s1 b, dispatchOuter ready pl s log sent = (s1, log ++ δ, b) ∧
      (b = true ↔ (sent = true ∨ δ ≠ [])) := by
  induction pl generalizing s log sent with
  | nil =>
    exact ⟨[], s, sent, by simp [dispatchOuter], by simp⟩
  | cons p rest ih =>
    by_cases hr : ready p.fd
    · obtain ⟨δ1, t1, sent1, ab, heq1, hiff1⟩ :=
        dispatchInner_log_decomp p.fd s.fdReadCallbacks s log sent
      cases hab : ab with
      | true =>
        refine ⟨δ1, t1, true, ?_, ?_⟩
        · simp [dispatchOuter, hr, heq1, hab]
        · rw [hab] at hiff1
          exact iff_of_true rfl (hiff1.mp (Or.inl rfl))
      | false =>
        obtain ⟨δ2, t2, b, heq2, hiff2⟩ := ih t1 (log ++ δ1) sent1
        refine ⟨δ1 ++ δ2, t2, b, ?_, ?_⟩
        · simp [dispatchOuter, hr, heq1, hab, heq2]
        · rw [hab] at hiff1
          simp only [Bool.false_eq_true, false_or] at hiff1
          rw [hiff2, hiff1]
          constructor
          · rintro ((h | h) | h)
            · exact Or.inl h
            · exact Or.inr (by simp [h])
            · exact Or.inr (by intro hcon; simp at hcon; exact h hcon.2)
          · rintro (h | h)
            · exact Or.inl (Or.inl h)
            · by_cases h1 : δ1 = []
              · subst h1
                simp at h
                exact Or.inr (by simpa)
              · exact Or.inl (Or.inr h1)
    · obtain ⟨δ, s1, b, heq, hiff⟩ := ih s log sent
      exact ⟨δ, s1, b, by simp [dispatchOuter, hr, heq], hiff⟩

/-- C3: return semantics of `dispatchPendingEvents`.  (1) When the
zero-timeout wait finds nothing ready, the pass returns "no event"
(`false`) with no invocation.  (2) The pass returns `true` exactly when at
least one callback was invoked — covering both the "event dispatched"
return at the end of a clean pass and the immediate "event/retry" return
taken as soon as a post-invocation `applyPendingChanges` applied
something.  (3) The abort is immediate: with two callbacks registered for
the same ready descriptor, the first of which stages a change, the pass
stops after the first invocation (log `[d]`, not `[d, d]`) and returns
`true`. -/
theorem dispatchPendingEvents_return_semantics :
    (∀ (ready : Int → Bool) (s : RLState),
      (applyPendingChanges s).1.pfds.filter (fun p => ready p.fd) = [] →
        dispatchPendingEvents ready s = ((applyPendingChanges s).1, false, [])) ∧
    (∀ (ready : Int → Bool) (s : RLState),
      ((dispatchPendingEvents ready s).2.1 = true ↔ (dispatchPendingEvents ready s).2.2 ≠ [])) ∧
    (∀ (d x mask : Int) (cb2 : Cb) (ready : Int → Bool), ready d = true →
      (dispatchPendingEvents ready (abortPairState d x mask cb2)).2 = (true, [d])) := by
  refine ⟨?_, ?_, ?_⟩
  · intro ready s h
    simp [dispatchPendingEvents, h]
  · intro ready s
    simp only [dispatchPendingEvents]
    split
    · simp
    · rename_i hne
      obtain ⟨δ, s1, b, heq, hiff⟩ :=
        dispatchOuter_log_decomp ready (applyPendingChanges s).1.pfds (applyPendingChanges s).1
          [] false
      simp [heq, hiff]
  · intro d x mask cb2 ready hready
    simp [dispatchPendingEvents, applyPendingChanges, dispatchOuter, dispatchInner,
      runCb, unregisterFdCallback, abortPairState, hready]

/-- C3 witness: each part of the return-semantics theorem applied at a
concrete input. -/
theorem dispatchPendingEvents_return_semantics_witness :
    ((applyPendingChanges rlInit).1.pfds.filter (fun p => (fun _ => false : Int → Bool) p.fd)
        = [] ∧
      dispatchPendingEvents (fun _ => false) rlInit = ((applyPendingChanges rlInit).1, false, [])) ∧
    ((dispatchPendingEvents (fun _ => true) (selfUnregState 4 1)).2.1 = true ↔
      (dispatchPendingEvents (fun _ => true) (selfUnregState 4 1)).2.2 ≠ []) ∧
    ((fun _ => true : Int → Bool) 3 = true ∧
      (dispatchPendingEvents (fun _ => true) (abortPairState 3 9 1 Cb.noop)).2 = (true, [3])) :=
  ⟨⟨rfl, dispatchPendingEvents_return_semantics.1 (fun _ => false) rlInit rfl⟩,
    dispatchPendingEvents_return_semantics.2.1 (fun _ => true) (selfUnregState 4 1),
    rfl, dispatchPendingEvents_return_semantics.2.2 3 9 1 Cb.noop (fun _ => true) rfl⟩

theorem map_filter_key {α β : Type} (f : α → β) (p : β → Bool) (l : List α) :
    (l.filter (fun x => p (f x))).map f = (l.map f).filter p := by
  induction l with
  | nil => rfl
  | cons a t ih =>
    simp only [List.filter_cons, List.map_cons]
    cases hp : p (f a) <;> simp [hp, ih]

theorem removeFdCallback_aligned (t : RLState) (fd : Int) (h : fdsAligned t) :
    fdsAligned (removeFdCallback t fd) := by
  have e1 := map_filter_key Prod.fst (fun y => decide (y ≠ fd)) t.fdReadCallbacks
  have e2 := map_filter_key FdEntry.fd (fun y => decide (y ≠ fd)) t.pfds
  unfold fdsAligned at h ⊢
  simp only [removeFdCallback]
  rw [e1, e2, h]

theorem foldl_removeFdCallback_aligned (fds : List Int) (t : RLState) (h : fdsAligned t) :
    fdsAligned (fds.foldl removeFdCallback t) := by
  induction fds generalizing t with
  | nil => simpa
  | cons fd rest ih =>
    simp only [List.foldl_cons]
    exact ih (removeFdCallback t fd) (removeFdCallback_aligned t fd h)

theorem applyPendingChanges_aligned (s : RLState) (h1 : fdsAligned s)
    (h2 : pendingWellFormed s) :
    fdsAligned (applyPendingChanges s).1 ∧ pendingWellFormed (applyPendingChanges s).1 := by
  simp only [applyPendingChanges]
  split
  · exact ⟨h1, h2⟩
  · constructor
    · have hs1 : fdsAligned { s with
          fdReadCallbacks := s.fdReadCallbacks ++ s.pendingAdditions.map (fun a => (a.1, a.2.1)),
          pfds := s.pfds ++ s.pendingAdditions.map (fun a => a.2.2) } := by
        unfold fdsAligned at h1 ⊢
        simp only [List.map_append, List.map_map, h1]
        congr 1
        refine List.map_congr_left ?_
        intro a ha
        simp only [Function.comp_apply]
        exact (h2 a ha).symm
      have hfold := foldl_removeFdCallback_aligned s.pendingRemovals _ hs1
      unfold fdsAligned at hfold ⊢
      simpa using hfold
    · intro a ha
      simp at ha

theorem fdsAligned_mem_pfds (t : RLState) (h : fdsAligned t) (p : FdEntry)
    (hp : p ∈ t.pfds) : ∃ c ∈ t.fdReadCallbacks, c.1 = p.fd := by
  have hm : p.fd ∈ t.pfds.map FdEntry.fd := List.mem_map_of_mem FdEntry.fd hp
  rw [← h] at hm
  obtain ⟨c, hc, hfc⟩ := List.mem_map.mp hm
  exact ⟨c, hc, hfc⟩

theorem fdsAligned_mem_cbs (t : RLState) (h : fdsAligned t) (c : Int × Cb)
    (hc : c ∈ t.fdReadCallbacks) : ∃ p ∈ t.pfds, p.fd = c.1 := by
  have hm : c.1 ∈ t.fdReadCallbacks.map Prod.fst := List.mem_map_of_mem Prod.fst hc
  rw [h] at hm
  obtain ⟨p, hp, hfp⟩ := List.mem_map.mp hm
  exact ⟨p, hp, hfp⟩

/-- C10: `fdReadCallbacks` and `pfds` always list the same descriptors,
entry for entry: a registration stages a pollfd built from the same `fd`,
a merged addition pushes one entry onto both vectors, a merged removal
erases all entries matching the descriptor from both, so the alignment
(and well-formedness of staged additions) is preserved by
`registerFdCallback`, `unregisterFdCallback` and `applyPendingChanges`;
consequently, after `applyPendingChanges`, every descriptor of the poll
set has a matching callback and vice versa. -/
theorem fd_vectors_aligned_invariant (s : RLState)
    (h1 : fdsAligned s) (h2 : pendingWellFormed s) :
    (fdsAligned (applyPendingChanges s).1 ∧ pendingWellFormed (applyPendingChanges s).1) ∧
    (∀ (fd : Int) (cb : Cb) (mask : Int),
      fdsAligned (registerFdCallback s fd cb mask) ∧
        pendingWellFormed (registerFdCallback s fd cb mask)) ∧
    (∀ fd : Int, fdsAligned (unregisterFdCallback s fd) ∧
      pendingWellFormed (unregisterFdCallback s fd)) ∧
    (∀ p ∈ (applyPendingChanges s).1.pfds,
      ∃ c ∈ (applyPendingChanges s).1.fdReadCallbacks, c.1 = p.fd) ∧
    (∀ c ∈ (applyPendingChanges s).1.fdReadCallbacks,
      ∃ p ∈ (applyPendingChanges s).1.pfds, p.fd = c.1) := by
  obtain ⟨ha1, ha2⟩ := applyPendingChanges_aligned s h1 h2
  refine ⟨⟨ha1, ha2⟩, ?_, ?_, ?_, ?_⟩
  · intro fd cb mask
    constructor
    · exact h1
    · intro a ha
      simp only [registerFdCallback, List.mem_append, List.mem_singleton] at ha
      rcases ha with h | h
      · exact h2 a h
      · subst h; rfl
  · intro fd
    exact ⟨h1, h2⟩
  · exact fun p hp => fdsAligned_mem_pfds _ ha1 p hp
  · exact fun c hc => fdsAligned_mem_cbs _ ha1 c hc

/-- C10 witness: the alignment invariant applied to a state with one live
descriptor, one staged addition and one staged removal. -/
theorem fd_vectors_aligned_invariant_witness :
    fdsAligned rlMixed ∧ pendingWellFormed rlMixed ∧
      ((fdsAligned (applyPendingChanges rlMixed).1 ∧
          pendingWellFormed (applyPendingChanges rlMixed).1) ∧
        (∀ (fd : Int) (cb : Cb) (mask : Int),
          fdsAligned (registerFdCallback rlMixed fd cb mask) ∧
            pendingWellFormed (registerFdCallback rlMixed fd cb mask)) ∧
        (∀ fd : Int, fdsAligned (unregisterFdCallback rlMixed fd) ∧
          pendingWellFormed (unregisterFdCallback rlMixed fd)) ∧
        (∀ p ∈ (applyPendingChanges rlMixed).1.pfds,
          ∃ c ∈ (applyPendingChanges rlMixed).1.fdReadCallbacks, c.1 = p.fd) ∧
        (∀ c ∈ (applyPendingChanges rlMixed).1.fdReadCallbacks,
          ∃ p ∈ (applyPendingChanges rlMixed).1.pfds, p.fd = c.1)) :=
  ⟨by decide, by decide, fd_vectors_aligned_invariant rlMixed (by decide) (by decide)⟩

end JuceLinuxMessaging
